import Mathlib

/-!
Verification development for the `samsolver` clue compiler and
incremental fact-deduction engine (`src/main.py`).

The program is shallowly embedded: cpmpy integer/boolean constraint
expressions over named boolean variables become the inductive types
`IExpr`/`BExpr` (variable names are single characters, which is the only
form the program ever creates), a cpmpy `Model` becomes the list of
constraints added so far, and the solver oracle is modelled as a complete
decision procedure for satisfiability over assignments `Char → Bool`.
-/

namespace SamSolver

/-- The six comparison operators dispatched by `use_op`. -/
inductive CmpOp
  | le | lt | ge | gt | eq | ne
deriving DecidableEq

/-- Integer-valued cpmpy expressions as built by this program: integer
constants, `cp.sum` over a list of boolean variables (each counted 0/1),
subtraction (`len(atoms) - cp.sum(atoms)`), and `%`. -/
inductive IExpr
  | const : Int → IExpr
  | sum : List Char → IExpr
  | sub : IExpr → IExpr → IExpr
  | mod : IExpr → IExpr → IExpr
deriving DecidableEq

/-- Boolean-valued cpmpy expressions as built by this program.
`cp.any`/`cp.all` over lists are modelled as folded binary or/and
(see `anyE`/`allE`). -/
inductive BExpr
  | boolConst : Bool → BExpr
  | var : Char → BExpr
  | notE : BExpr → BExpr
  | andE : BExpr → BExpr → BExpr
  | orE : BExpr → BExpr → BExpr
  | cmp : CmpOp → IExpr → IExpr → BExpr
deriving DecidableEq

/-- Meaning of a comparison operator on integers. -/
def CmpOp.apply : CmpOp → Int → Int → Bool
  | .le, a, b => decide (a ≤ b)
  | .lt, a, b => decide (a < b)
  | .ge, a, b => decide (b ≤ a)
  | .gt, a, b => decide (b < a)
  | .eq, a, b => decide (a = b)
  | .ne, a, b => decide (a ≠ b)

/-- Value of an integer expression under an assignment of the boolean
variables. -/
def evalI (σ : Char → Bool) : IExpr → Int
  | .const n => n
  | .sum l => (l.map (fun c => if σ c then (1 : Int) else 0)).sum
  | .sub a b => evalI σ a - evalI σ b
  | .mod a b => evalI σ a % evalI σ b

/-- Value of a boolean expression under an assignment. -/
def evalB (σ : Char → Bool) : BExpr → Bool
  | .boolConst b => b
  | .var c => σ c
  | .notE e => !(evalB σ e)
  | .andE a b => evalB σ a && evalB σ b
  | .orE a b => evalB σ a || evalB σ b
  | .cmp op a b => op.apply (evalI σ a) (evalI σ b)

/-- Model of cpmpy `cp.any` applied to a list of expressions. -/
def anyE (l : List BExpr) : BExpr := l.foldr .orE (.boolConst false)

/-- Model of cpmpy `cp.all` applied to a list of expressions. -/
def allE (l : List BExpr) : BExpr := l.foldr .andE (.boolConst true)

theorem evalB_anyE (σ : Char → Bool) (l : List BExpr) :
    evalB σ (anyE l) = l.any (fun e => evalB σ e) := by
  induction l with
  | nil => rfl
  | cons e t ih => simp [anyE, evalB, List.foldr] at ih ⊢; simp [ih]

theorem evalB_allE (σ : Char → Bool) (l : List BExpr) :
    evalB σ (allE l) = l.all (fun e => evalB σ e) := by
  induction l with
  | nil => rfl
  | cons e t ih => simp [allE, evalB, List.foldr] at ih ⊢; simp [ih]

/-- Variables occurring in an integer expression. -/
def IExpr.vars : IExpr → List Char
  | .const _ => []
  | .sum l => l
  | .sub a b => a.vars ++ b.vars
  | .mod a b => a.vars ++ b.vars

/-- Variables occurring in a boolean expression. -/
def BExpr.vars : BExpr → List Char
  | .boolConst _ => []
  | .var c => [c]
  | .notE e => e.vars
  | .andE a b => a.vars ++ b.vars
  | .orE a b => a.vars ++ b.vars
  | .cmp _ a b => a.vars ++ b.vars

theorem evalI_congr (σ σ' : Char → Bool) (e : IExpr)
    (h : ∀ c ∈ e.vars, σ c = σ' c) : evalI σ e = evalI σ' e := by
  induction e with
  | const n => rfl
  | sum l =>
      simp only [evalI]
      congr 1
      exact List.map_congr_left (fun c hc => by rw [h c hc])
  | sub a b iha ihb =>
      simp only [evalI]
      rw [iha (fun c hc => h c (by simp [IExpr.vars, hc])),
        ihb (fun c hc => h c (by simp [IExpr.vars, hc]))]
  | mod a b iha ihb =>
      simp only [evalI]
      rw [iha (fun c hc => h c (by simp [IExpr.vars, hc])),
        ihb (fun c hc => h c (by simp [IExpr.vars, hc]))]

theorem evalB_congr (σ σ' : Char → Bool) (e : BExpr)
    (h : ∀ c ∈ e.vars, σ c = σ' c) : evalB σ e = evalB σ' e := by
  induction e with
  | boolConst b => rfl
  | var c => exact h c (by simp [BExpr.vars])
  | notE e ih => simp only [evalB]; rw [ih h]
  | andE a b iha ihb =>
      simp only [evalB]
      rw [iha (fun c hc => h c (by simp [BExpr.vars, hc])),
        ihb (fun c hc => h c (by simp [BExpr.vars, hc]))]
  | orE a b iha ihb =>
      simp only [evalB]
      rw [iha (fun c hc => h c (by simp [BExpr.vars, hc])),
        ihb (fun c hc => h c (by simp [BExpr.vars, hc]))]
  | cmp op a b =>
      simp only [evalB]
      rw [evalI_congr σ σ' a (fun c hc => h c (by simp [BExpr.vars, hc])),
        evalI_congr σ σ' b (fun c hc => h c (by simp [BExpr.vars, hc]))]

/-- Exhaustive search for a satisfying assignment: try both values of
each listed variable, then evaluate every constraint of the store. -/
def satOver : List Char → (Char → Bool) → List BExpr → Bool
  | [], σ, s => s.all (fun e => evalB σ e)
  | v :: vs, σ, s =>
      satOver vs (fun c => if c = v then true else σ c) s ||
        satOver vs (fun c => if c = v then false else σ c) s

/-- All variables mentioned by a store, deduplicated. -/
def storeVars (s : List BExpr) : List Char := (s.flatMap BExpr.vars).dedup

/-- Model of the solver oracle: decides whether the conjunction of the
store's constraints has a satisfying assignment. -/
def storeSat (s : List BExpr) : Bool := satOver (storeVars s) (fun _ => false) s

/-- Semantic satisfiability of a store as a conjunction of constraints. -/
def Satisfiable (s : List BExpr) : Prop := ∃ σ, ∀ e ∈ s, evalB σ e = true

theorem satOver_iff (vs : List Char) (σ : Char → Bool) (s : List BExpr) :
    satOver vs σ s = true ↔
      ∃ σ', (∀ c, c ∉ vs → σ' c = σ c) ∧ ∀ e ∈ s, evalB σ' e = true := by
  induction vs generalizing σ with
  | nil =>
      simp only [satOver, List.all_eq_true]
      constructor
      · exact fun h => ⟨σ, fun c _ => rfl, h⟩
      · rintro ⟨σ', hagree, hsat⟩ e he
        rw [evalB_congr σ σ' e (fun c _ => (hagree c (by simp)).symm)]
        exact hsat e he
  | cons v vs ih =>
      simp only [satOver, Bool.or_eq_true, ih]
      constructor
      · rintro (⟨σ', hagree, hsat⟩ | ⟨σ', hagree, hsat⟩) <;>
          refine ⟨σ', fun c hc => ?_, hsat⟩ <;>
          · have hcv : c ≠ v := fun h => hc (h ▸ List.mem_cons_self v vs)
            have := hagree c (fun h => hc (List.mem_cons_of_mem v h))
            simpa [hcv] using this
      · rintro ⟨σ', hagree, hsat⟩
        rcases hb : σ' v with _ | _
        · right
          refine ⟨σ', fun c hc => ?_, hsat⟩
          by_cases hcv : c = v
          · simp [hcv, hb]
          · simp [hcv, hagree c (fun h => hc (by simp [hcv] at h ⊢; exact h))]
        · left
          refine ⟨σ', fun c hc => ?_, hsat⟩
          by_cases hcv : c = v
          · simp [hcv, hb]
          · simp [hcv, hagree c (fun h => hc (by simp [hcv] at h ⊢; exact h))]

theorem storeSat_iff (s : List BExpr) : storeSat s = true ↔ Satisfiable s := by
  unfold storeSat Satisfiable
  rw [satOver_iff]
  constructor
  · rintro ⟨σ', _, hsat⟩
    exact ⟨σ', hsat⟩
  · rintro ⟨σ, hsat⟩
    refine ⟨fun c => if c ∈ storeVars s then σ c else false, fun c hc => by simp [hc], ?_⟩
    intro e he
    rw [evalB_congr _ σ e ?_]
    · exact hsat e he
    · intro c hc
      have hmem : c ∈ storeVars s := by
        unfold storeVars
        rw [List.mem_dedup]
        exact List.mem_flatMap.mpr ⟨e, he, hc⟩
      simp [hmem]

instance (s : List BExpr) : Decidable (Satisfiable s) :=
  decidable_of_iff (storeSat s = true) (storeSat_iff s)

/-- A store with extra constraints satisfiable implies the smaller store
satisfiable. -/
theorem Satisfiable.mono {s s' : List BExpr} (hsub : s ⊆ s')
    (h : Satisfiable s') : Satisfiable s := by
  rcases h with ⟨σ, hσ⟩
  exact ⟨σ, fun e he => hσ e (hsub he)⟩

/-! ## The tokenizer (`tokenize` in `src/main.py`)

A cpmpy `BoolVar(name=s)` is identified by its name, and this program
only ever creates single-character names, so in the embedding a boolean
variable simply is its `Char` name (`symbols_to_boolvars` becomes the
identity on character lists). -/

/-- First-character class of the letter-cluster branch
(`first_char.isalpha() or first_char == '$'`, matched by `[$a-zA-Z]+`). -/
def isLetterChar (c : Char) : Bool := c.isAlpha || c = '$'

/-- Character class of the symbol-cluster branch (`[^$a-zA-Z0-9\s]+`). -/
def isSymbolChar (c : Char) : Bool := !(c.isAlpha || c = '$' || c.isDigit || c.isWhitespace)

/-- The tokenizer loop. Each iteration consumes at least one character,
so running it with fuel equal to the input length reproduces the
source's `while i < len(text)` loop exactly; the fuel-exhausted case is
never reached. Atom extraction mirrors the source: only the first
letter-cluster token has its characters (minus `$`) collected, and the
Python `set` of atoms is modelled as a list in first-occurrence order. -/
def tokenizeAux : Nat → List Char → Bool → List String × List Char
  | 0, _, _ => ([], [])
  | _ + 1, [], _ => ([], [])
  | fuel + 1, c :: rest, alreadyExtracted =>
    if c.isWhitespace then tokenizeAux fuel rest alreadyExtracted
    else
      let isLetterTok := isLetterChar c
      let cls := if isLetterTok then isLetterChar else if c.isDigit then Char.isDigit else isSymbolChar
      let tok := (c :: rest).takeWhile cls
      let rest' := (c :: rest).dropWhile cls
      let next := tokenizeAux fuel rest' (alreadyExtracted || isLetterTok)
      let atoms := if isLetterTok && !alreadyExtracted
        then (tok.filter (fun d => d ≠ '$')).dedup ++ next.2
        else next.2
      (String.mk tok :: next.1, atoms)

/-- Model of `tokenize(text)`: the token list and the set of person
atoms mentioned (as a duplicate-free list). -/
def tokenize (text : String) : List String × List Char :=
  tokenizeAux text.length text.data false

/-! ## The expression compiler -/

/-- Model of `use_op(left, right, op)`; `none` models the
`RuntimeError(f'Unsupported ast operator {op}')` the source raises. -/
def use_op (left right : IExpr) (op : String) : Option BExpr :=
  if op = ">=" then some (.cmp .ge left right)
  else if op = ">" then some (.cmp .gt left right)
  else if op = "<=" then some (.cmp .le left right)
  else if op = "<" then some (.cmp .lt left right)
  else if op = "=" ∨ op = "==" then some (.cmp .eq left right)
  else if op = "!=" ∨ op = "<>" then some (.cmp .ne left right)
  else none

/-- Polarity strip shared by `connected_expr` and `parity_expr`:
`(False, leaf[1:]) if leaf[0] == '$' else (True, leaf)`. The source
indexes `leaf[0]`, which presumes a nonempty token (tokenizer clusters
are nonempty); on `[]` the no-marker branch is taken. -/
def stripPolarity : List Char → Bool × List Char
  | '$' :: rest => (false, rest)
  | l => (true, l)

/-- The failure test `connected_expr` builds for one interior index:
`cp.any(left) & (~center) & cp.any(right)` for innocent polarity,
`(~cp.all(left)) & center & (~cp.all(right))` for criminal polarity. -/
def connectedTest (innocence : Bool) (atoms : List Char) (center_idx : Nat) : BExpr :=
  let left := (atoms.take center_idx).map BExpr.var
  let center := BExpr.var (atoms.getD center_idx ' ')
  let right := (atoms.drop (center_idx + 1)).map BExpr.var
  if innocence then .andE (.andE (anyE left) (.notE center)) (anyE right)
  else .andE (.andE (.notE (allE left)) center) (.notE (allE right))

/-- Model of `connected_expr(leaf)`: one failure test for every
`center_idx in range(1, len(atoms)-1)`; the result forbids all of
them. Sequences shorter than 3 compile to `True`. -/
def connected_expr (leaf : List Char) : BExpr :=
  if (stripPolarity leaf).2.length < 3 then .boolConst true
  else
    .notE (anyE ((List.range' 1 ((stripPolarity leaf).2.length - 2)).map
      (connectedTest (stripPolarity leaf).1 (stripPolarity leaf).2)))

/-- Model of `parity_expr(leaf, parity_str)`:
`(count of target-polarity variables) % 2 == (1 if odd else 0)`. -/
def parity_expr (leaf : List Char) (parity_str : String) : BExpr :=
  let pr := stripPolarity leaf
  let count_expr : IExpr :=
    if pr.1 then .sum pr.2 else .sub (.const pr.2.length) (.sum pr.2)
  let parity : Int := if parity_str = "odd" then 1 else 0
  .cmp .eq (.mod count_expr (.const 2)) (.const parity)

/-- Decimal value of a digit cluster, as `int(leaf_text)` computes it. -/
def digitsToNat (l : List Char) : Nat :=
  l.foldl (fun acc c => 10 * acc + (c.toNat - '0'.toNat)) 0

/-- Model of `leaf_to_expr(leaf_text)`: letter cluster becomes a sum of
variables, `$`-cluster the criminal count, digit cluster the literal.
`none` models Python's implicit `None` on any other first character
(the source has no `else` branch). The digit branch guards that the
whole token is digits (`int` would raise otherwise); in the pipeline
that token always is a pure digit cluster. -/
def leaf_to_expr (leaf : List Char) : Option IExpr :=
  match leaf with
  | [] => none
  | c :: rest =>
    if c.isAlpha then some (.sum (c :: rest))
    else if c = '$' then some (.sub (.const rest.length) (.sum rest))
    else if c.isDigit then
      if (c :: rest).all Char.isDigit then some (.const (digitsToNat (c :: rest))) else none
    else none

/-! ## The fact-deduction engine (`find_known_facts`) -/

/-- Model of cpmpy `Model.copy()`: an independent snapshot of the store. -/
def modelCopy (m : List BExpr) : List BExpr := m

/-- Model of cpmpy `Model.add` / `Model.__iadd__`: conjoin a constraint. -/
def modelAdd (m : List BExpr) (e : BExpr) : List BExpr := m ++ [e]

/-- The output line for one deduced fact:
`f'{atom.upper()} is a criminal.'` / `f'{atom.upper()} is innocent.'`. -/
def factString (atom : Char) (criminal : Bool) : String :=
  String.mk (atom.toUpper :: (if criminal then " is a criminal." else " is innocent.").data)

/-- What `find_known_facts` yields for one scanned atom: probe
`store ∧ atom` on a copy; if unsatisfiable the atom is a criminal,
otherwise probe `store ∧ ¬atom` on a fresh copy; if that is
unsatisfiable the atom is innocent; otherwise nothing. -/
def reportAtom (model : List BExpr) (atom : Char) : List String :=
  if !storeSat (modelAdd (modelCopy model) (.var atom)) then [factString atom true]
  else if !storeSat (modelAdd (modelCopy model) (.notE (.var atom))) then
    [factString atom false]
  else []

/-- Model of `find_known_facts(model, atomics)` as the list of yielded
fact lines, in scan order. -/
def find_known_facts (model : List BExpr) (atomics : List Char) : List String :=
  atomics.flatMap (reportAtom model)

/-- State-threaded `find_known_facts`: the authoritative model is passed
through every operation the source performs, and each probe conjoins its
hypothesis only to a `modelCopy` snapshot, exactly as
`model.copy().add(...)` does. The second component is the authoritative
model as it stands after the call. -/
def find_known_facts_st (model : List BExpr) : List Char → List String × List BExpr
  | [] => ([], model)
  | atom :: rest =>
    let ifTrue := modelAdd (modelCopy model) (.var atom)
    if !storeSat ifTrue then
      let next := find_known_facts_st model rest
      (factString atom true :: next.1, next.2)
    else
      let ifFalse := modelAdd (modelCopy model) (.notE (.var atom))
      if !storeSat ifFalse then
        let next := find_known_facts_st model rest
        (factString atom false :: next.1, next.2)
      else
        find_known_facts_st model rest

/-! ## The session loop (`main`) -/

/-- Model of `SOLVER_SECONDS` from the source. -/
def SOLVER_SECONDS : Nat := 1

/-- Time-limit arguments of the oracle `solve` calls `find_known_facts`
makes for one atom, in order: the first probe always runs — as the bare
`if_true.solve()`, with no time limit — and the second probe runs only
when the first came back satisfiable, again as bare `if_false.solve()`. -/
def probe_calls_atom (model : List BExpr) (atom : Char) : List (Option Nat) :=
  if !storeSat (modelAdd (modelCopy model) (.var atom)) then [none]
  else [none, none]

/-- Time-limit arguments of every `solve` call a full
`find_known_facts` scan makes. -/
def find_known_facts_calls (model : List BExpr) (atomics : List Char) : List (Option Nat) :=
  atomics.flatMap (probe_calls_atom model)

/-- The per-session mutable state of `main`: the accumulated model
`the_truth`, the variable names added so far (`all_atomics`, a Python
set modelled as a list in first-insertion order), and the facts already
displayed (`known_facts`). -/
structure SessionState where
  store : List BExpr
  allAtomics : List Char
  knownFacts : List String
deriving DecidableEq

/-- The state `main` starts a session with. -/
def initState : SessionState := ⟨[], [], []⟩

/-- Outcome of compiling one clue line, mirroring `main`'s dispatch.
`tryAgain` models a raised-and-caught `TryAgain`; `crashed` models an
exception no handler catches (the `RuntimeError` from `use_op`);
`unmodeled` marks the one path outside the modelled fragment, a
comparison whose operand compiled to Python `None` (whose behaviour
then depends on Python/cpmpy coercions). -/
inductive Compiled
  | tryAgain (msg : String)
  | ok (e : BExpr)
  | crashed (msg : String)
  | unmodeled
deriving DecidableEq

/-- Dispatch on the token shape of one clue line, as the body of
`main`'s loop does before touching the store. -/
def compileTokens (tokens : List String) (atomics : List Char) : Compiled × List Char :=
  match tokens with
  | [left, op, right] =>
    if op = "is" then
      if right = "connected" then (.ok (connected_expr left.data), atomics)
      else if right = "odd" ∨ right = "even" then (.ok (parity_expr left.data right), atomics)
      else (.tryAgain "Syntax error 2", atomics)
    else
      match leaf_to_expr left.data, leaf_to_expr right.data with
      | some l, some r =>
        match use_op l r op with
        | some e => (.ok e, atomics)
        | none => (.crashed ("Unsupported ast operator " ++ op), atomics)
      | _, _ =>
        match use_op (.const 0) (.const 0) op with
        | some _ => (.unmodeled, atomics)
        | none => (.crashed ("Unsupported ast operator " ++ op), atomics)
  | _ => (.tryAgain "Syntax error 1", atomics)

/-- Tokenize one clue line and dispatch on its shape. -/
def compileClue (clue : String) : Compiled × List Char :=
  compileTokens (tokenize clue).1 (tokenize clue).2

/-- Result of processing one clue line: loop again with the state
unchanged (`TryAgain` caught), loop again with the new state after
printing the newly forced facts, end the session (`Exit`), or die on an
uncaught exception. -/
inductive StepResult
  | tryAgain (msg : String)
  | continued (st : SessionState) (printed : List String)
  | exited (msg : String)
  | crashed (msg : String)
  | unmodeled
deriving DecidableEq

/-- The `Exit` message raised when the store becomes unsatisfiable. -/
def contradictionMsg : String := "No solution. Contradiction found."

/-- One iteration of `main`'s loop on a clue line (after
`enter_clue`'s lowercasing/stripping, with `h`/`q` handled by the
excluded REPL glue). The oracle is modelled as a complete decision
procedure, so the `ExitStatus.UNKNOWN` timeout branch is never taken. -/
def processClue (st : SessionState) (clue : String) : StepResult :=
  match compileClue clue with
  | (.tryAgain msg, _) => .tryAgain msg
  | (.crashed msg, _) => .crashed msg
  | (.unmodeled, _) => .unmodeled
  | (.ok expr, atomics) =>
    let allAtomics := st.allAtomics ++ atomics.filter (fun a => decide (a ∉ st.allAtomics))
    let store := modelAdd st.store expr
    if !storeSat store then .exited contradictionMsg
    else
      let newKnown := find_known_facts store allAtomics
      let added := newKnown.filter (fun f => decide (f ∉ st.knownFacts))
      .continued ⟨store, allAtomics, newKnown⟩ added

/-- Time-limit arguments of every oracle `solve` call one iteration of
`main`'s loop makes on an accepted clue, in order: first
`the_truth.solve(time_limit=SOLVER_SECONDS)`, then — when the store
stayed satisfiable — the probes of `find_known_facts`. -/
def processClueCalls (st : SessionState) (clue : String) : List (Option Nat) :=
  match compileClue clue with
  | (.ok expr, atomics) =>
    let allAtomics := st.allAtomics ++ atomics.filter (fun a => decide (a ∉ st.allAtomics))
    let store := modelAdd st.store expr
    some SOLVER_SECONDS :: (if !storeSat store then [] else find_known_facts_calls store allAtomics)
  | _ => []

/-- How a whole session ends. -/
inductive SessionEnd
  | finished
  | exited (msg : String)
  | crashed (msg : String)
  | unmodeled
deriving DecidableEq

/-- Run `main`'s loop over a list of clue lines: `TryAgain` leaves the
state untouched and moves on, a contradiction (or a crash) stops the
session with the remaining lines unprocessed. -/
def runSession : SessionState → List String → SessionState × SessionEnd
  | st, [] => (st, .finished)
  | st, line :: rest =>
    match processClue st line with
    | .tryAgain _ => runSession st rest
    | .continued st' _ => runSession st' rest
    | .exited msg => (st, .exited msg)
    | .crashed msg => (st, .crashed msg)
    | .unmodeled => (st, .unmodeled)

/-! ## The specification's wording of the connectivity predicate -/

/-- Whether a variable has the predicate's target polarity. -/
def hasPol (innocence : Bool) (σ : Char → Bool) (c : Char) : Bool :=
  if innocence then σ c else !(σ c)

/-- Modelled from the spec's words (for comparison with
`connected_expr`): for each index `i` strictly between the first and
last position, it is not the case that some variable left of `i` has
the target polarity, variable `i` lacks it, and some variable right of
`i` has it. -/
def specConnected (leaf : List Char) (σ : Char → Bool) : Prop :=
  ∀ i, 0 < i → i + 1 < (stripPolarity leaf).2.length →
    ¬((∃ j, j < i ∧
        hasPol (stripPolarity leaf).1 σ ((stripPolarity leaf).2.getD j ' ') = true) ∧
      hasPol (stripPolarity leaf).1 σ ((stripPolarity leaf).2.getD i ' ') = false ∧
      (∃ k, i < k ∧ k < (stripPolarity leaf).2.length ∧
        hasPol (stripPolarity leaf).1 σ ((stripPolarity leaf).2.getD k ' ') = true))

/-! ## Claim theorems -/

/-- C6: every deduction probe operates on an isolated copy of the
constraint store: running the fact scan leaves the authoritative store
equal to its value before the call, and produces the same facts as the
pure scan — no probed hypothesis is ever conjoined into the accumulated
clue history. -/
theorem c6_probe_isolation (model : List BExpr) (atomics : List Char) :
    (find_known_facts_st model atomics).2 = model ∧
    (find_known_facts_st model atomics).1 = find_known_facts model atomics := by
  induction atomics with
  | nil => exact ⟨rfl, rfl⟩
  | cons a rest ih =>
    simp only [find_known_facts_st, find_known_facts, List.flatMap_cons, reportAtom]
    rcases h1 : storeSat (modelAdd (modelCopy model) (.var a)) with _ | _
    · simpa [h1, find_known_facts] using ih
    · rcases h2 : storeSat (modelAdd (modelCopy model) (.notE (.var a))) with _ | _
      · simpa [h1, h2, find_known_facts] using ih
      · simpa [h1, h2, find_known_facts] using ih

/-- C2: if adding an accepted clue makes the accumulated constraint
store unsatisfiable, `main` raises `Exit` with the contradiction
message, the session terminates, and the remaining input lines are
never processed. -/
theorem c2_contradiction_terminates (st : SessionState) (line : String) (e : BExpr)
    (atoms : List Char) (rest : List String)
    (hc : compileClue line = (.ok e, atoms))
    (hunsat : ¬ Satisfiable (modelAdd st.store e)) :
    processClue st line = .exited contradictionMsg ∧
    runSession st (line :: rest) = (st, .exited contradictionMsg) := by
  have hss : storeSat (modelAdd st.store e) = false := by
    rcases h : storeSat (modelAdd st.store e) with _ | _
    · rfl
    · exact absurd ((storeSat_iff _).mp h) hunsat
  have hp : processClue st line = .exited contradictionMsg := by
    unfold processClue
    rw [hc]
    simp [hss]
  refine ⟨hp, ?_⟩
  unfold runSession
  rw [hp]

/-- Witness for C2: the session that accepted `a=1` then reads `a=0`
exits with the contradiction message, whatever lines follow. -/
theorem c2_witness :
    processClue ⟨[BExpr.cmp .eq (.sum ['a']) (.const 1)], ['a'], ["A is innocent."]⟩
        "a=0" = .exited contradictionMsg ∧
      runSession ⟨[BExpr.cmp .eq (.sum ['a']) (.const 1)], ['a'], ["A is innocent."]⟩
        ["a=0", "b=1"] =
        (⟨[BExpr.cmp .eq (.sum ['a']) (.const 1)], ['a'], ["A is innocent."]⟩,
          .exited contradictionMsg) :=
  c2_contradiction_terminates
    ⟨[BExpr.cmp .eq (.sum ['a']) (.const 1)], ['a'], ["A is innocent."]⟩
    "a=0" (BExpr.cmp .eq (.sum ['a']) (.const 0)) ['a'] ["b=1"]
    (by decide) (by decide)

/-- C8 counterexample: accepting the clue `a=1` from the initial state
makes three oracle calls — the post-add solve with the one-second
budget, then two probe solves with no time limit at all — so not every
oracle invocation carries an explicit time budget. -/
theorem c8_counterexample :
    processClueCalls initState "a=1" = [some SOLVER_SECONDS, none, none] ∧
    none ∈ processClueCalls initState "a=1" := by decide

/-- C8 amended: only the solve performed right after adding a clue is
invoked with an explicit time budget (`SOLVER_SECONDS`); every
per-variable probe of `find_known_facts` calls `solve()` with no time
limit. -/
theorem c8_amended (model : List BExpr) (atomics : List Char) (st : SessionState)
    (clue : String) (e : BExpr) (atoms : List Char)
    (hc : compileClue clue = (.ok e, atoms)) :
    (∀ c ∈ find_known_facts_calls model atomics, c = none) ∧
    (processClueCalls st clue).head? = some (some SOLVER_SECONDS) := by
  constructor
  · intro c hc'
    rcases List.mem_flatMap.mp hc' with ⟨a, _, hmem⟩
    unfold probe_calls_atom at hmem
    rcases h : storeSat (modelAdd (modelCopy model) (.var a)) with _ | _ <;>
      rw [h] at hmem <;> simpa using hmem
  · unfold processClueCalls
    rw [hc]
    rfl

/-- Witness for C8 amended, at the store `a=1` and the clue `a=1`. -/
theorem c8_witness :
    (∀ c ∈ find_known_facts_calls [BExpr.cmp .eq (.sum ['a']) (.const 1)] ['a'], c = none) ∧
    (processClueCalls initState "a=1").head? = some (some SOLVER_SECONDS) :=
  c8_amended [BExpr.cmp .eq (.sum ['a']) (.const 1)] ['a'] initState "a=1"
    (BExpr.cmp .eq (.sum ['a']) (.const 1)) ['a'] (by decide)

/-- The constraint compiled from the clue `abc!=0`. -/
def abcNe0 : BExpr := .cmp .ne (.sum ['a', 'b', 'c']) (.const 0)

/-- The constraint compiled from the clue `abc!=2`. -/
def abcNe2 : BExpr := .cmp .ne (.sum ['a', 'b', 'c']) (.const 2)

/-- The assignment making every person innocent. -/
def allInnocent : Char → Bool := fun _ => true

/-- C9 counterexample: the all-innocent assignment satisfies both
compiled constraints `abc!=0` and `abc!=2`, yet the innocent count
among A, B, C is 3, not 1 — so the two clues do not force exactly one
innocent. -/
theorem c9_counterexample :
    (compileClue "abc!=0").1 = .ok abcNe0 ∧
    (compileClue "abc!=2").1 = .ok abcNe2 ∧
    evalB allInnocent abcNe0 = true ∧
    evalB allInnocent abcNe2 = true ∧
    ['a', 'b', 'c'].countP allInnocent ≠ 1 := by decide

theorem evalI_sum_countP (σ : Char → Bool) (l : List Char) :
    evalI σ (.sum l) = (l.countP σ : Int) := by
  induction l with
  | nil => rfl
  | cons c t ih =>
    have hstep : evalI σ (IExpr.sum (c :: t)) =
        (if σ c then (1 : Int) else 0) + evalI σ (IExpr.sum t) := by
      simp [evalI]
    rw [hstep, ih, List.countP_cons]
    rcases h : σ c with _ | _
    · simp [h]
    · simp only [h, if_true, decide_eq_true_eq]
      push_cast
      omega

/-- C9 amended: every assignment satisfying the compiled constraints
for `abc!=0` and `abc!=2` has an odd number (one or three) of innocents
among A, B, C; the count need not be exactly one. -/
theorem c9_amended (σ : Char → Bool)
    (h0 : evalB σ abcNe0 = true) (h2 : evalB σ abcNe2 = true) :
    (['a', 'b', 'c'].countP σ) % 2 = 1 := by
  simp only [abcNe0, abcNe2, evalB, CmpOp.apply, decide_eq_true_eq] at h0 h2
  rw [evalI_sum_countP σ] at h0 h2
  simp only [evalI] at h0 h2
  have hle : ['a', 'b', 'c'].countP σ ≤ 3 := List.countP_le_length σ
  omega

/-- Witness for C9 amended: the all-innocent assignment satisfies both
clues and has an odd innocent count. -/
theorem c9_witness :
    evalB allInnocent abcNe0 = true ∧ evalB allInnocent abcNe2 = true ∧
    (['a', 'b', 'c'].countP allInnocent) % 2 = 1 :=
  ⟨by decide, by decide, c9_amended allInnocent (by decide) (by decide)⟩

/-- The store after accepting the single clue `abcde is connected`. -/
def connStore : List BExpr := [connected_expr "abcde".data]

/-- The store after accepting `abcde is connected`, `a=0`, `e=1`, in
session order. -/
def connStore3 : List BExpr :=
  [connected_expr "abcde".data,
    BExpr.cmp .eq (.sum ['a']) (.const 0),
    BExpr.cmp .eq (.sum ['e']) (.const 1)]

/-- C10 counterexample: with `abcde is connected`, `a=0`, `e=1`
accepted, the deduction engine reports no pinned status for B or for D
— indeed both values of B and of D remain satisfiable (the innocent
runs can be anything from `{e}` alone up to `{b,c,d,e}`), so the
engine cannot and does not force either. -/
theorem c10_counterexample :
    factString 'b' true ∉ find_known_facts connStore3 ['a', 'b', 'c', 'd', 'e'] ∧
    factString 'b' false ∉ find_known_facts connStore3 ['a', 'b', 'c', 'd', 'e'] ∧
    factString 'd' true ∉ find_known_facts connStore3 ['a', 'b', 'c', 'd', 'e'] ∧
    factString 'd' false ∉ find_known_facts connStore3 ['a', 'b', 'c', 'd', 'e'] ∧
    Satisfiable (modelAdd connStore3 (.var 'b')) ∧
    Satisfiable (modelAdd connStore3 (.notE (.var 'b'))) ∧
    Satisfiable (modelAdd connStore3 (.var 'd')) ∧
    Satisfiable (modelAdd connStore3 (.notE (.var 'd'))) := by decide

/-- C10 amended: with `abcde is connected` alone, no letter is forced;
after additionally accepting `a=0` and `e=1` — the exact session run —
the engine forces A criminal and E innocent, but B, C, D all stay
undetermined, so in particular neither B nor D is ever reported. -/
theorem c10_amended :
    find_known_facts connStore ['a', 'b', 'c', 'd', 'e'] = [] ∧
    find_known_facts connStore3 ['a', 'b', 'c', 'd', 'e'] =
      [factString 'a' true, factString 'e' false] ∧
    runSession initState ["abcde is connected", "a=0", "e=1"] =
      (⟨connStore3, ['a', 'b', 'c', 'd', 'e'],
        [factString 'a' true, factString 'e' false]⟩, .finished) := by decide

/-- C5 counterexample: the grammar-rejected line `a?1` (unrecognized
operator) is not reported-and-skipped: `use_op` raises a
`RuntimeError` that no handler catches, so the session dies instead of
continuing with the next input line. -/
theorem c5_counterexample :
    processClue initState "a?1" = .crashed "Unsupported ast operator ?" ∧
    runSession initState ["a?1", "a=1"] =
      (initState, .crashed "Unsupported ast operator ?") := by decide

theorem use_op_none_congr (a b c d : IExpr) (op : String) :
    use_op a b op = none ↔ use_op c d op = none := by
  unfold use_op
  split_ifs <;> simp

theorem compileClue_not3 (clue : String) (h : (tokenize clue).1.length ≠ 3) :
    compileClue clue = (.tryAgain "Syntax error 1", (tokenize clue).2) := by
  unfold compileClue
  rcases htok : (tokenize clue).1 with _ | ⟨a, _ | ⟨b, _ | ⟨c, _ | ⟨d, l⟩⟩⟩⟩ <;>
    first
      | rfl
      | (exact absurd (by rw [htok]; rfl) h)

theorem compileClue_is_bad (clue : String) (l r : String)
    (htok : (tokenize clue).1 = [l, "is", r])
    (h1 : r ≠ "connected") (h2 : r ≠ "odd") (h3 : r ≠ "even") :
    compileClue clue = (.tryAgain "Syntax error 2", (tokenize clue).2) := by
  unfold compileClue
  rw [htok]
  simp [compileTokens, h1, h2, h3]

theorem compileClue_bad_op (clue : String) (l op r : String)
    (htok : (tokenize clue).1 = [l, op, r]) (hop : op ≠ "is")
    (huse : use_op (.const 0) (.const 0) op = none) :
    compileClue clue = (.crashed ("Unsupported ast operator " ++ op), (tokenize clue).2) := by
  unfold compileClue
  rw [htok]
  simp only [compileTokens]
  rw [if_neg hop]
  rcases hl : leaf_to_expr l.data with _ | le
  · rcases hr : leaf_to_expr r.data with _ | re <;> simp [huse]
  · rcases hr : leaf_to_expr r.data with _ | re
    · simp [huse]
    · simp [(use_op_none_congr le re (.const 0) (.const 0) op).mpr huse]

theorem runSession_cons (st : SessionState) (line : String) (rest : List String) :
    runSession st (line :: rest) =
      match processClue st line with
      | .tryAgain _ => runSession st rest
      | .continued st' _ => runSession st' rest
      | .exited msg => (st, .exited msg)
      | .crashed msg => (st, .crashed msg)
      | .unmodeled => (st, .unmodeled) := rfl

/-- C5 amended: a line with the wrong token count, or with `is`
followed by an unrecognized keyword, is reported via `TryAgain` and
discarded with the store unchanged and the loop continuing; but a line
with an unrecognized comparison operator raises an uncaught error that
kills the session, and a line whose operands are numeric literals
(left operand not a letter-cluster) is not rejected at all — it is
silently accepted into the store. -/
theorem c5_amended (st : SessionState) (line : String) (rest : List String) :
    ((tokenize line).1.length ≠ 3 →
      processClue st line = .tryAgain "Syntax error 1" ∧
      runSession st (line :: rest) = runSession st rest) ∧
    (∀ l r, (tokenize line).1 = [l, "is", r] →
      r ≠ "connected" → r ≠ "odd" → r ≠ "even" →
      processClue st line = .tryAgain "Syntax error 2" ∧
      runSession st (line :: rest) = runSession st rest) ∧
    (∀ l op r, (tokenize line).1 = [l, op, r] → op ≠ "is" →
      use_op (.const 0) (.const 0) op = none →
      processClue st line = .crashed ("Unsupported ast operator " ++ op)) ∧
    processClue initState "1=1" =
      .continued ⟨[.cmp .eq (.const 1) (.const 1)], [], []⟩ [] := by
  refine ⟨fun h => ?_, fun l r htok h1 h2 h3 => ?_, fun l op r htok hop huse => ?_, by decide⟩
  · have hc := compileClue_not3 line h
    have hp : processClue st line = .tryAgain "Syntax error 1" := by
      unfold processClue
      rw [hc]
    refine ⟨hp, ?_⟩
    rw [runSession_cons, hp]
  · have hc := compileClue_is_bad line l r htok h1 h2 h3
    have hp : processClue st line = .tryAgain "Syntax error 2" := by
      unfold processClue
      rw [hc]
    refine ⟨hp, ?_⟩
    rw [runSession_cons, hp]
  · have hc := compileClue_bad_op line l op r htok hop huse
    unfold processClue
    rw [hc]

/-- Witness for C5 amended: the two-token line `ab` is reported as a
syntax error and skipped, leaving the session to process the rest. -/
theorem c5_witness :
    processClue initState "ab" = .tryAgain "Syntax error 1" ∧
    runSession initState ["ab", "a=1"] = runSession initState ["a=1"] :=
  (c5_amended initState "ab" ["a=1"]).1 (by decide)

theorem storeSat_eq_false_iff (s : List BExpr) :
    storeSat s = false ↔ ¬ Satisfiable s := by
  rw [← storeSat_iff]
  rcases storeSat s with _ | _ <;> simp

theorem factString_inj {a b : Char} {x y : Bool} (h : factString a x = factString b y) :
    Char.toUpper a = Char.toUpper b ∧ x = y := by
  have hd := congrArg String.data h
  rcases x with _ | _ <;> rcases y with _ | _
  · injection hd with h1 h2
    exact ⟨h1, rfl⟩
  · injection hd with h1 h2
    exact absurd h2 (by decide)
  · injection hd with h1 h2
    exact absurd h2 (by decide)
  · injection hd with h1 h2
    exact ⟨h1, rfl⟩

theorem factString_true_ne_false (b : Char) : factString b true ≠ factString b false :=
  fun h => Bool.noConfusion (factString_inj h).2

theorem reportAtom_mem (S : List BExpr) (b : Char) {s : String}
    (h : s ∈ reportAtom S b) :
    s = factString b true ∨ s = factString b false := by
  unfold reportAtom at h
  split_ifs at h
  · exact Or.inl (List.mem_singleton.mp h)
  · exact Or.inr (List.mem_singleton.mp h)
  · exact absurd h (List.not_mem_nil s)

theorem reportAtom_crit_iff (S : List BExpr) (b : Char) :
    factString b true ∈ reportAtom S b ↔ ¬ Satisfiable (modelAdd S (.var b)) := by
  rw [← storeSat_eq_false_iff]
  unfold reportAtom modelCopy
  rcases h1 : storeSat (modelAdd S (.var b)) with _ | _
  · simp
  · rcases h2 : storeSat (modelAdd S (.notE (.var b))) with _ | _ <;>
      simp [factString_true_ne_false b]

theorem reportAtom_innoc_iff (S : List BExpr) (b : Char) :
    factString b false ∈ reportAtom S b ↔
      Satisfiable (modelAdd S (.var b)) ∧ ¬ Satisfiable (modelAdd S (.notE (.var b))) := by
  rw [← storeSat_iff, ← storeSat_eq_false_iff]
  unfold reportAtom modelCopy
  rcases h1 : storeSat (modelAdd S (.var b)) with _ | _
  · simp [(factString_true_ne_false b).symm]
  · rcases h2 : storeSat (modelAdd S (.notE (.var b))) with _ | _ <;> simp

/-- C1: for every store and every variable the scan covers (the scanned
names being distinct up to upcasing, as `main`'s lowercase atom set
always is), `find_known_facts` reports the variable criminal exactly
when the store conjoined with it is unsatisfiable, reports it innocent
exactly when the store conjoined with it is satisfiable while the store
conjoined with its negation is unsatisfiable, and never reports both
statuses in one scan. -/
theorem c1_soundness (S : List BExpr) (atoms : List Char) (a : Char)
    (ha : a ∈ atoms) (hnd : (atoms.map Char.toUpper).Nodup) :
    (factString a true ∈ find_known_facts S atoms ↔
      ¬ Satisfiable (modelAdd S (.var a))) ∧
    (factString a false ∈ find_known_facts S atoms ↔
      Satisfiable (modelAdd S (.var a)) ∧ ¬ Satisfiable (modelAdd S (.notE (.var a)))) ∧
    ¬(factString a true ∈ find_known_facts S atoms ∧
      factString a false ∈ find_known_facts S atoms) := by
  have key : ∀ x : Bool,
      (factString a x ∈ find_known_facts S atoms ↔ factString a x ∈ reportAtom S a) := by
    intro x
    unfold find_known_facts
    rw [List.mem_flatMap]
    constructor
    · rintro ⟨b, hb, hmem⟩
      rcases reportAtom_mem S b hmem with h | h <;>
      · have hab : a = b := List.inj_on_of_nodup_map hnd ha hb (factString_inj h).1
        subst hab
        exact hmem
    · intro h
      exact ⟨a, ha, h⟩
  refine ⟨?_, ?_, ?_⟩
  · rw [key true, reportAtom_crit_iff]
  · rw [key false, reportAtom_innoc_iff]
  · rintro ⟨h1, h2⟩
    rw [key true, reportAtom_crit_iff] at h1
    rw [key false, reportAtom_innoc_iff] at h2
    exact h1 h2.1

/-- Witness for C1, at the store compiled from `a=1` and the scanned
atom `a`: the scan reports A innocent and not criminal, matching the
two satisfiability probes. -/
theorem c1_witness :
    ('a' ∈ (['a'] : List Char)) ∧ ((['a'] : List Char).map Char.toUpper).Nodup ∧
    ((factString 'a' true ∈
        find_known_facts [BExpr.cmp .eq (.sum ['a']) (.const 1)] ['a'] ↔
      ¬ Satisfiable (modelAdd [BExpr.cmp .eq (.sum ['a']) (.const 1)] (.var 'a'))) ∧
    (factString 'a' false ∈
        find_known_facts [BExpr.cmp .eq (.sum ['a']) (.const 1)] ['a'] ↔
      Satisfiable (modelAdd [BExpr.cmp .eq (.sum ['a']) (.const 1)] (.var 'a')) ∧
        ¬ Satisfiable (modelAdd [BExpr.cmp .eq (.sum ['a']) (.const 1)]
          (.notE (.var 'a')))) ∧
    ¬(factString 'a' true ∈
        find_known_facts [BExpr.cmp .eq (.sum ['a']) (.const 1)] ['a'] ∧
      factString 'a' false ∈
        find_known_facts [BExpr.cmp .eq (.sum ['a']) (.const 1)] ['a'])) :=
  ⟨by decide, by decide,
    c1_soundness [BExpr.cmp .eq (.sum ['a']) (.const 1)] ['a'] 'a'
      (by decide) (by decide)⟩

/-- C4: once a variable is reported forced, any satisfiable extension
of the store (any further sequence of accepted clues) reports it with
the same status — never undetermined again and never with the opposite
polarity — and a second `find_known_facts` run on the unchanged store
yields output whose delta against the already-announced facts is
empty. -/
theorem c4_monotone (S T : List BExpr) (atoms : List Char) (a : Char)
    (hsat : Satisfiable (S ++ T)) :
    (∀ r ∈ reportAtom S a, reportAtom (S ++ T) a = [r]) ∧
    (find_known_facts S atoms).filter
      (fun f => decide (f ∉ find_known_facts S atoms)) = [] := by
  constructor
  · intro r hr
    have hsub1 : modelAdd S (.var a) ⊆ modelAdd (S ++ T) (.var a) := by
      intro e he
      simp only [modelAdd, List.mem_append, List.mem_singleton] at he ⊢
      tauto
    have hsub2 : modelAdd S (.notE (.var a)) ⊆ modelAdd (S ++ T) (.notE (.var a)) := by
      intro e he
      simp only [modelAdd, List.mem_append, List.mem_singleton] at he ⊢
      tauto
    unfold reportAtom modelCopy at hr ⊢
    rcases h1 : storeSat (modelAdd S (.var a)) with _ | _
    · rw [h1] at hr
      simp only [Bool.not_false, if_true] at hr
      have hr' : r = factString a true := List.mem_singleton.mp hr
      have hunsat : ¬ Satisfiable (modelAdd S (.var a)) := (storeSat_eq_false_iff _).mp h1
      have h1' : storeSat (modelAdd (S ++ T) (.var a)) = false :=
        (storeSat_eq_false_iff _).mpr (fun hs => hunsat (hs.mono hsub1))
      rw [h1']
      simp [hr']
    · rw [h1] at hr
      rcases h2 : storeSat (modelAdd S (.notE (.var a))) with _ | _
      · rw [h2] at hr
        simp only [Bool.not_true, Bool.not_false, if_false, if_true] at hr
        have hr' : r = factString a false := List.mem_singleton.mp hr
        have hunsat2 : ¬ Satisfiable (modelAdd S (.notE (.var a))) :=
          (storeSat_eq_false_iff _).mp h2
        have h2' : storeSat (modelAdd (S ++ T) (.notE (.var a))) = false :=
          (storeSat_eq_false_iff _).mpr (fun hs => hunsat2 (hs.mono hsub2))
        have h1' : storeSat (modelAdd (S ++ T) (.var a)) = true := by
          rw [storeSat_iff]
          rcases hsat with ⟨σ, hσ⟩
          have hav : σ a = true := by
            by_contra hav
            have hs2 : Satisfiable (modelAdd (S ++ T) (.notE (.var a))) := by
              refine ⟨σ, fun e he => ?_⟩
              rcases List.mem_append.mp he with he' | he'
              · exact hσ e he'
              · rw [List.mem_singleton.mp he']
                simp only [evalB, Bool.not_eq_true']
                exact Bool.not_eq_true _ ▸ (Bool.eq_false_iff.mpr hav)
            exact absurd ((storeSat_iff _).mpr hs2) (by simp [h2'])
          refine ⟨σ, fun e he => ?_⟩
          rcases List.mem_append.mp he with he' | he'
          · exact hσ e he'
          · rw [List.mem_singleton.mp he']
            exact hav
        rw [h1', h2']
        simp [hr']
      · rw [h2] at hr
        simp at hr
  · rw [List.filter_eq_nil_iff]
    intro f hf
    simp [hf]

/-- Witness for C4, extending the store `a=1` with the clue `b=1`:
the report for A is preserved and the re-run delta is empty. -/
theorem c4_witness :
    Satisfiable ([BExpr.cmp .eq (.sum ['a']) (.const 1)] ++
      [BExpr.cmp .eq (.sum ['b']) (.const 1)]) ∧
    ((∀ r ∈ reportAtom [BExpr.cmp .eq (.sum ['a']) (.const 1)] 'a',
        reportAtom ([BExpr.cmp .eq (.sum ['a']) (.const 1)] ++
          [BExpr.cmp .eq (.sum ['b']) (.const 1)]) 'a' = [r]) ∧
      (find_known_facts [BExpr.cmp .eq (.sum ['a']) (.const 1)] ['a']).filter
        (fun f =>
          decide (f ∉ find_known_facts [BExpr.cmp .eq (.sum ['a']) (.const 1)] ['a'])) =
        []) :=
  ⟨by decide,
    c4_monotone [BExpr.cmp .eq (.sum ['a']) (.const 1)]
      [BExpr.cmp .eq (.sum ['b']) (.const 1)] ['a'] 'a' (by decide)⟩

/-- C7 counterexample: on the line `ab>cd`, tokenization registers only
`a` and `b` as person-variables; the genuinely new letters `c` and `d`
of the right-hand operand are mentioned in the line but never added,
and the accepted session state scans only `['a', 'b']`. -/
theorem c7_counterexample :
    (tokenize "ab>cd").2 = ['a', 'b'] ∧
    'c' ∈ "ab>cd".data ∧ 'd' ∈ "ab>cd".data ∧
    'c' ∉ (tokenize "ab>cd").2 ∧ 'd' ∉ (tokenize "ab>cd").2 ∧
    processClue initState "ab>cd" =
      .continued ⟨[BExpr.cmp .gt (.sum ['a', 'b']) (.sum ['c', 'd'])], ['a', 'b'], []⟩
        [] := by decide

/-- The letters (minus the `$` marker, deduplicated) of the first
letter-cluster token of a token list, if any. -/
def firstClusterLetters : List String → List Char
  | [] => []
  | t :: ts =>
    match t.data with
    | [] => firstClusterLetters ts
    | c :: _ =>
      if isLetterChar c then (t.data.filter (fun d => d ≠ '$')).dedup
      else firstClusterLetters ts

theorem tokenizeAux_atoms : ∀ (fuel : Nat) (l : List Char),
    (tokenizeAux fuel l true).2 = [] ∧
    (tokenizeAux fuel l false).2 = firstClusterLetters (tokenizeAux fuel l false).1
  | 0, _ => ⟨rfl, rfl⟩
  | _ + 1, [] => ⟨rfl, rfl⟩
  | fuel + 1, c :: rest => by
    by_cases hws : c.isWhitespace = true
    · simpa only [tokenizeAux, hws, if_pos] using tokenizeAux_atoms fuel rest
    · by_cases hlet : isLetterChar c = true
      · have htok : (c :: rest).takeWhile isLetterChar =
            c :: rest.takeWhile isLetterChar := by
          rw [List.takeWhile_cons, if_pos hlet]
        have ih := tokenizeAux_atoms fuel ((c :: rest).dropWhile isLetterChar)
        constructor
        · simpa only [tokenizeAux, hws, hlet, if_pos, if_neg, Bool.true_or,
            Bool.not_true, Bool.and_false, Bool.false_eq_true, if_false] using ih.1
        · simp only [tokenizeAux, hws, hlet, if_pos, if_neg, Bool.false_or,
            Bool.not_false, Bool.and_true, Bool.false_eq_true, if_false, if_true,
            firstClusterLetters, htok]
          rw [ih.1]
          simp [htok, hlet]
      · have hcls : (if isLetterChar c = true then isLetterChar
            else if c.isDigit = true then Char.isDigit else isSymbolChar) =
            (if c.isDigit = true then Char.isDigit else isSymbolChar) := by
          rw [if_neg hlet]
        have hclsc : (if c.isDigit = true then Char.isDigit else isSymbolChar) c = true := by
          by_cases hd : c.isDigit = true
          · rw [if_pos hd]
            exact hd
          · rw [if_neg hd]
            have h1 : c.isAlpha = false := by
              rcases h : c.isAlpha with _ | _
              · rfl
              · exact absurd (by simp [isLetterChar, h]) hlet
            have h2 : c ≠ '$' := fun h => hlet (by simp [isLetterChar, h])
            have h3 : c.isDigit = false := by
              rcases h : c.isDigit with _ | _
              · rfl
              · exact absurd h hd
            have h4 : c.isWhitespace = false := by
              rcases h : c.isWhitespace with _ | _
              · rfl
              · exact absurd h hws
            unfold isSymbolChar
            simp [h1, h2, h3, h4]
        have htok : (c :: rest).takeWhile
              (if c.isDigit = true then Char.isDigit else isSymbolChar) =
            c :: rest.takeWhile (if c.isDigit = true then Char.isDigit else isSymbolChar) := by
          rw [List.takeWhile_cons, if_pos hclsc]
        have ih := tokenizeAux_atoms fuel
          ((c :: rest).dropWhile (if c.isDigit = true then Char.isDigit else isSymbolChar))
        constructor
        · simpa only [tokenizeAux, hws, hlet, hcls, if_neg, Bool.or_false,
            Bool.false_and, Bool.false_eq_true, if_false] using ih.1
        · simp only [tokenizeAux, hws, hlet, hcls, if_neg, Bool.or_false,
            Bool.false_and, Bool.false_eq_true, if_false, firstClusterLetters, htok]
          rw [ih.2]

/-- C7 amended: tokenization registers as person-variables exactly the
letters of the first letter-cluster token of the line (minus the `$`
marker); letters appearing only in later letter-clusters — such as the
right-hand operand of `ab>cd` — are never added to the set of known
variables the deduction engine scans. -/
theorem c7_amended (text : String) :
    (tokenize text).2 = firstClusterLetters (tokenize text).1 :=
  (tokenizeAux_atoms text.length text.data).2

theorem any_map_comp {α β : Type} (f : α → β) (p : β → Bool) (l : List α) :
    (l.map f).any p = l.any (fun a => p (f a)) := by
  induction l with
  | nil => rfl
  | cons a t ih => simp [ih]

theorem all_map_comp {α β : Type} (f : α → β) (p : β → Bool) (l : List α) :
    (l.map f).all p = l.all (fun a => p (f a)) := by
  induction l with
  | nil => rfl
  | cons a t ih => simp [ih]

theorem evalB_anyE_vars (σ : Char → Bool) (l : List Char) :
    evalB σ (anyE (l.map BExpr.var)) = l.any σ := by
  rw [evalB_anyE, any_map_comp]
  rfl

theorem evalB_allE_vars (σ : Char → Bool) (l : List Char) :
    evalB σ (allE (l.map BExpr.var)) = l.all σ := by
  rw [evalB_allE, all_map_comp]
  rfl

theorem any_take_iff (l : List Char) (p : Char → Bool) (i : Nat) (hi : i ≤ l.length) :
    ((l.take i).any p = true) ↔ ∃ j, j < i ∧ p (l.getD j ' ') = true := by
  rw [List.any_eq_true]
  constructor
  · rintro ⟨x, hx, hpx⟩
    rw [List.mem_iff_getElem] at hx
    rcases hx with ⟨j, hj, hx⟩
    have hj' : j < i ∧ j < l.length := by
      rw [List.length_take] at hj
      exact Nat.lt_min.mp hj
    refine ⟨j, hj'.1, ?_⟩
    rw [List.getD_eq_getElem l ' ' hj'.2]
    have hte : (l.take i)[j] = l[j] := List.getElem_take l
    rw [hte] at hx
    rw [hx]
    exact hpx
  · rintro ⟨j, hji, hpj⟩
    have hjlen : j < l.length := lt_of_lt_of_le hji hi
    refine ⟨l.getD j ' ', ?_, hpj⟩
    rw [List.mem_iff_getElem]
    refine ⟨j, by rw [List.length_take]; exact Nat.lt_min.mpr ⟨hji, hjlen⟩, ?_⟩
    rw [List.getD_eq_getElem l ' ' hjlen]
    exact List.getElem_take l

theorem any_drop_iff (l : List Char) (p : Char → Bool) (i : Nat) :
    ((l.drop i).any p = true) ↔
      ∃ k, i ≤ k ∧ k < l.length ∧ p (l.getD k ' ') = true := by
  rw [List.any_eq_true]
  constructor
  · rintro ⟨x, hx, hpx⟩
    rw [List.mem_iff_getElem] at hx
    rcases hx with ⟨j, hj, hx⟩
    rw [List.length_drop] at hj
    have hk : i + j < l.length := by omega
    refine ⟨i + j, Nat.le_add_right i j, hk, ?_⟩
    have hde : (l.drop i)[j] = l[i + j] := List.getElem_drop l
    rw [hde] at hx
    rw [List.getD_eq_getElem l ' ' hk, hx]
    exact hpx
  · rintro ⟨k, hik, hk, hpk⟩
    have hj : k - i < (l.drop i).length := by
      rw [List.length_drop]
      omega
    refine ⟨(l.drop i).get ⟨k - i, hj⟩, List.get_mem _ _ hj, ?_⟩
    have hde : (l.drop i)[k - i] = l[i + (k - i)] := List.getElem_drop l
    have hik' : i + (k - i) = k := by omega
    rw [List.get_eq_getElem, hde]
    rw [List.getD_eq_getElem l ' ' hk] at hpk
    convert hpk using 3

theorem hasPol_false (σ : Char → Bool) : hasPol false σ = fun c => !(σ c) := by
  funext c
  simp [hasPol]

theorem hasPol_true (σ : Char → Bool) : hasPol true σ = σ := by
  funext c
  simp [hasPol]

theorem not_all_eq_any_not (l : List Char) (σ : Char → Bool) :
    (!(l.all σ)) = l.any (fun c => !(σ c)) := by
  induction l with
  | nil => rfl
  | cons c t ih => simp [Bool.not_and, ih]

/-- Both polarity branches of a failure test evaluate to the same
`(some-left-has-polarity) && (center-lacks-it) && (some-right-has-it)`
shape. -/
theorem connectedTest_eval (inn : Bool) (symbols : List Char) (σ : Char → Bool) (i : Nat) :
    evalB σ (connectedTest inn symbols i) =
      (((symbols.take i).any (hasPol inn σ) &&
        !(hasPol inn σ (symbols.getD i ' '))) &&
        (symbols.drop (i + 1)).any (hasPol inn σ)) := by
  rcases inn with _ | _
  · simp only [connectedTest, Bool.false_eq_true, if_false, evalB, evalB_allE_vars,
      not_all_eq_any_not, hasPol_false, Bool.not_not]
  · simp only [connectedTest, if_true, evalB, evalB_anyE_vars, hasPol_true]

theorem connectedTest_false_iff (inn : Bool) (symbols : List Char) (σ : Char → Bool)
    (i : Nat) (h1 : 0 < i) (h2 : i + 1 < symbols.length) :
    (evalB σ (connectedTest inn symbols i) = false) ↔
      ¬((∃ j, j < i ∧ hasPol inn σ (symbols.getD j ' ') = true) ∧
        hasPol inn σ (symbols.getD i ' ') = false ∧
        (∃ k, i < k ∧ k < symbols.length ∧ hasPol inn σ (symbols.getD k ' ') = true)) := by
  have hile : i ≤ symbols.length := by omega
  have eTake : ((symbols.take i).any (hasPol inn σ) = true) ↔
      ∃ j, j < i ∧ hasPol inn σ (symbols.getD j ' ') = true :=
    any_take_iff symbols (hasPol inn σ) i hile
  have eDrop : ((symbols.drop (i + 1)).any (hasPol inn σ) = true) ↔
      ∃ k, i < k ∧ k < symbols.length ∧ hasPol inn σ (symbols.getD k ' ') = true := by
    rw [any_drop_iff symbols (hasPol inn σ) (i + 1)]
    constructor
    · rintro ⟨k, hik, hk, hp⟩
      exact ⟨k, by omega, hk, hp⟩
    · rintro ⟨k, hik, hk, hp⟩
      exact ⟨k, by omega, hk, hp⟩
  rw [connectedTest_eval, Bool.eq_false_iff, Ne]
  refine not_congr ?_
  rw [Bool.and_eq_true, Bool.and_eq_true, and_assoc]
  exact and_congr eTake (and_congr (by rw [Bool.not_eq_true']) eDrop)

/-- C3: the compiled connectivity expression holds in exactly those
assignments where, for each index strictly between the first and last
position, it is not the case that some variable left of it has the
target polarity, the variable itself lacks it, and some variable right
of it has it; sequences of fewer than 3 variables compile to an
expression that is trivially true (the interior-index condition is
vacuous). -/
theorem c3_connected_correct (leaf : List Char) (σ : Char → Bool) :
    evalB σ (connected_expr leaf) = true ↔ specConnected leaf σ := by
  unfold connected_expr specConnected
  by_cases hlen : (stripPolarity leaf).2.length < 3
  · rw [if_pos hlen]
    constructor
    · intro _ i hi1 hi2
      intro _
      omega
    · intro _
      rfl
  · rw [if_neg hlen]
    have h1 : evalB σ (.notE (anyE ((List.range' 1 ((stripPolarity leaf).2.length - 2)).map
          (connectedTest (stripPolarity leaf).1 (stripPolarity leaf).2)))) = true ↔
        ∀ i ∈ List.range' 1 ((stripPolarity leaf).2.length - 2),
          evalB σ (connectedTest (stripPolarity leaf).1 (stripPolarity leaf).2 i) = false := by
      simp only [evalB, Bool.not_eq_true']
      rw [evalB_anyE, any_map_comp, List.any_eq_false]
      simp only [Bool.not_eq_true]
    rw [h1]
    constructor
    · intro h i hi1 hi2
      have hmem : i ∈ List.range' 1 ((stripPolarity leaf).2.length - 2) := by
        rw [List.mem_range'_1]
        omega
      exact (connectedTest_false_iff _ _ σ i hi1 hi2).mp (h i hmem)
    · intro h i hmem
      rw [List.mem_range'_1] at hmem
      have hi1 : 0 < i := by omega
      have hi2 : i + 1 < (stripPolarity leaf).2.length := by omega
      exact (connectedTest_false_iff _ _ σ i hi1 hi2).mpr (h i hi1 hi2)

end SamSolver
